import Mathlib

/-!
Tic-tac-toe component architecture: a shallow embedding

The JavaScript classes `Square`, `Move` and `Game` (`src/static/js/*.js`, and the
bundled copy `tic-tac-toe.src.js`) are embedded as pure state-passing functions.

* A JavaScript value held in `player`, `playerHistory`, `nextPlayer` or `winner`
  is a `Val`: `undefined` (a class field never assigned), `null`, or a string.
* A method that would raise a `TypeError` (reading a property of `undefined`)
  returns `none`; a method that completes returns `some` of the new state.
* The DOM is modelled as far as the game reads or detaches it: the text of the
  status label, the text of every square button, and the children of the `ol`
  element (the `li` root elements of the inflated moves, named by node ids).
* The base class `Component` is embedded on its own, over a document made of
  `parentElement` links and listener registrations.
-/

namespace TicTacToe

/-- A JavaScript value as stored in the mark-carrying fields. -/
inductive Val where
  | undefined : Val
  | null : Val
  | str (s : String) : Val
  deriving DecidableEq, Repr

/-- JavaScript truthiness: `undefined`, `null` and the empty string are falsy. -/
def Val.truthy : Val → Bool
  | .str s => s != ""
  | _ => false

/-- String conversion used by `'Winner: ' + v` and `'Next Player: ' + v`. -/
def Val.toStr : Val → String
  | .undefined => "undefined"
  | .null => "null"
  | .str s => s

/-- Text stored by `element.textContent = v` (a nullable DOMString attribute:
`null` and `undefined` both clear the text). -/
def Val.toText : Val → String
  | .str s => s
  | _ => ""

/-- A board cell (`Square.js`); `textContent` is the text of its button. -/
structure Square where
  position : Int
  player : Val
  playerHistory : Val
  textContent : String
  deriving DecidableEq, Repr

/-- An inflated move-list entry (`Move.js`): `label` is the text rendered in its
button, `rootElement` the node id of its `li` element. -/
structure Move where
  position : Int
  index : Int
  label : String
  rootElement : Nat
  deriving DecidableEq, Repr

/-- The two elements `Game.inflate` creates and keeps: the text of
`statusLabel` and the children of the `ol` element `moveList`. -/
structure View where
  statusLabel : String
  moveList : List Nat
  deriving DecidableEq, Repr

/-- The state of a `Game` (`Game.js`). `view = none` before `inflate`
(`statusLabel` and `moveList` are `undefined`); `nodes` counts the `li`
elements created so far, so that every created element has its own identity. -/
structure Game where
  squares : List Square
  moves : List Move
  currentMoveIndex : Int
  nextPlayer : Val
  winner : Val
  view : Option View
  nodes : Nat
  deriving DecidableEq, Repr

/-- Array read `xs[i]` for a JavaScript number `i`: `undefined` (here `none`)
outside `0 .. length - 1`. -/
def lookup {α : Type} (xs : List α) (i : Int) : Option α :=
  if i < 0 then none else xs[i.toNat]?

/-- Array write through an object reference found at `xs[i]`. -/
def update {α : Type} (xs : List α) (i : Int) (x : α) : List α :=
  if i < 0 then xs else xs.set i.toNat x

/-- Constructor `new Square(game, position)` followed by `square.inflate(rowElement)`. -/
def Square.create (position : Int) : Square :=
  { position := position, player := .undefined, playerHistory := .undefined,
    textContent := "" }

/-- Method `Square.clear`. -/
def Square.clear (s : Square) : Square :=
  { s with textContent := "", player := .null }

/-- Method `Square.refresh`. -/
def Square.refresh (s : Square) : Square :=
  { s with textContent := s.playerHistory.toText, player := s.playerHistory }

/-- Constructor `new Move(game, position)` followed by `move.inflate(moveList, index)` with
an existing `moveList`; `node` is the new `li` element. -/
def Move.create (position index : Int) (node : Nat) : Move :=
  { position := position, index := index,
    label := if index > 0 then "Go to move #" ++ toString index
             else "Go to game start",
    rootElement := node }

/-- Method `Component.deflate` on a move: when its `li` has a parent (it is a child of
the `ol`), it is removed from it. -/
def Move.deflate (m : Move) (ol : List Nat) : List Nat :=
  if m.rootElement ∈ ol then ol.erase m.rootElement else ol

/-- The eight winning lines, in the order of the source. -/
def lines : List (Nat × Nat × Nat) :=
  [(0, 1, 2), (3, 4, 5), (6, 7, 8), (0, 3, 6), (1, 4, 7), (2, 5, 8), (0, 4, 8),
   (2, 4, 6)]

/-- The loop of `Game.calculateWinner` over the remaining lines, with the
short-circuit evaluation of `&&`. -/
def calculateWinnerLoop (squares : List Square) :
    List (Nat × Nat × Nat) → Option Val
  | [] => some .null
  | (a, b, c) :: rest =>
    match squares[a]? with
    | none => none
    | some sa =>
      if sa.player.truthy then
        match squares[b]? with
        | none => none
        | some sb =>
          if sa.player = sb.player then
            match squares[c]? with
            | none => none
            | some sc =>
              if sa.player = sc.player then some sa.player
              else calculateWinnerLoop squares rest
          else calculateWinnerLoop squares rest
      else calculateWinnerLoop squares rest

/-- Method `Game.calculateWinner`. -/
def Game.calculateWinner (g : Game) : Option Val :=
  calculateWinnerLoop g.squares lines

/-- Method `Game.updateGameStatus`. -/
def Game.updateGameStatus (g : Game) : Option Game :=
  let xIsNext : Bool := Int.tmod g.currentMoveIndex 2 == 0
  let g1 : Game := { g with nextPlayer := if xIsNext then .str "X" else .str "0" }
  match g1.calculateWinner with
  | none => none
  | some w =>
    match g1.view with
    | none => none
    | some v =>
      some { g1 with
        winner := w
        view := some { v with
          statusLabel :=
            if w.truthy then "Winner: " ++ w.toStr
            else "Next Player: " ++ g1.nextPlayer.toStr } }

/-- The loop of `Game.refreshMoves`: `i` is the loop variable, the first
argument bounds the number of iterations. -/
def refreshMovesLoop (currentMoveIndex : Int) :
    Nat → Int → List Move → List Nat → Option (List Move × List Nat)
  | 0, _, _, _ => none
  | fuel + 1, i, moves, ol =>
    if i > currentMoveIndex then
      match moves.getLast? with
      | none => none
      | some move =>
        refreshMovesLoop currentMoveIndex fuel (i - 1) moves.dropLast
          (move.deflate ol)
    else some (moves, ol)

/-- Method `Game.refreshMoves`. Every iteration pops a move, so `moves.length + 1`
iterations are never exceeded. -/
def Game.refreshMoves (g : Game) : Option Game :=
  let ol : List Nat := match g.view with
    | none => []
    | some v => v.moveList
  match refreshMovesLoop g.currentMoveIndex (g.moves.length + 1)
      ((g.moves.length : Int) - 1) g.moves ol with
  | none => none
  | some (moves, ol1) =>
    some { g with
      moves := moves
      view := g.view.map fun v => { v with moveList := ol1 } }

/-- Method `Game.onMove`. Without a status label (`view = none`) the call ends in a
`TypeError` inside `updateGameStatus`. -/
def Game.onMove (g : Game) (position : Int) : Option Game :=
  match g.refreshMoves with
  | none => none
  | some g1 =>
    let g2 : Game := { g1 with currentMoveIndex := g1.currentMoveIndex + 1 }
    match g2.view with
    | none => none
    | some v =>
      let move := Move.create position g2.currentMoveIndex g2.nodes
      Game.updateGameStatus { g2 with
        moves := g2.moves ++ [move]
        view := some { v with moveList := v.moveList ++ [move.rootElement] }
        nodes := g2.nodes + 1 }

/-- The loop of `Game.jumpToMove`, for the loop variable `i` down to `1`. -/
def jumpToMoveLoop (moveIndex : Int) (moves : List Move) :
    Nat → List Square → Val → Option (List Square × Val)
  | 0, squares, nextPlayer => some (squares, nextPlayer)
  | i + 1, squares, _ =>
    match moves[i + 1]? with
    | none => none
    | some move =>
      match lookup squares move.position with
      | none => none
      | some square =>
        jumpToMoveLoop moveIndex moves i
          (update squares move.position
            (if ((i + 1 : Nat) : Int) > moveIndex then square.clear
             else square.refresh))
          square.player

/-- Method `Game.jumpToMove`. -/
def Game.jumpToMove (g : Game) (moveIndex : Int) : Option Game :=
  match jumpToMoveLoop moveIndex g.moves (g.moves.length - 1) g.squares
      g.nextPlayer with
  | none => none
  | some (squares, nextPlayer) =>
    match Game.updateGameStatus { g with
        squares := squares
        nextPlayer := nextPlayer
        currentMoveIndex := moveIndex } with
    | none => none
    | some g1 => some { g1 with winner := .null }

/-- Method `Square.activate` on the square object stored at `g.squares[i]`. -/
def Game.activate (g : Game) (i : Nat) : Option Game :=
  match g.squares[i]? with
  | none => none
  | some square =>
    if !square.player.truthy && !g.winner.truthy then
      let square1 : Square := { square with playerHistory := g.nextPlayer }
      Game.onMove { g with squares := g.squares.set i square1.refresh }
        square1.position
    else some g

/-- Method `Move.jumpTo` on the move object stored at `g.moves[j]`. -/
def Game.jumpTo (g : Game) (j : Nat) : Option Game :=
  match g.moves[j]? with
  | none => none
  | some move => g.jumpToMove move.index

/-- Constructor `new Game()`. -/
def Game.new : Game :=
  { squares := [], moves := [], currentMoveIndex := -1, nextPlayer := .undefined,
    winner := .undefined, view := none, nodes := 0 }

/-- The squares pushed by the nested loops of `Game.inflate`: three rows of
three, `position` counting up from `0`. -/
def inflateSquares : List Square :=
  (List.range 3).flatMap fun i => (List.range 3).map fun j =>
    Square.create ((3 * i + j : Nat) : Int)

/-- Method `Game.inflate(el)`; `el = false` stands for a missing parent element. -/
def Game.inflate (g : Game) (el : Bool) : Option Game :=
  if el then
    Game.onMove { g with
      view := some { statusLabel := "", moveList := [] }
      squares := g.squares ++ inflateSquares } (-1)
  else some g

/-- The game of the page: `new Game()` inflated into the game container. -/
def start : Option Game := Game.new.inflate true

/-- A sequence of square activations (clicks), left to right. -/
def plays : Option Game → List Nat → Option Game
  | og, [] => og
  | og, p :: ps => plays (og.bind fun g => g.activate p) ps

/-- The marks on the board, square by square. -/
def Game.board (g : Game) : List Val := g.squares.map Square.player

/-- The status text shown, empty when there is no status label. -/
def Game.status (g : Game) : String :=
  match g.view with
  | none => ""
  | some v => v.statusLabel

/-- The mark `updateGameStatus` selects at move index `n`. -/
def markFor (n : Int) : Val :=
  if Int.tmod n 2 == 0 then .str "X" else .str "0"

/-- The mark on square `a`, `undefined` when there is no such square. -/
def playerAt (squares : List Square) (a : Nat) : Val :=
  match squares[a]? with
  | none => .undefined
  | some s => s.player

/-- A line holds three identical non-empty marks. -/
def lineFull (squares : List Square) (l : Nat × Nat × Nat) : Bool :=
  (playerAt squares l.1).truthy && playerAt squares l.1 == playerAt squares l.2.1
    && playerAt squares l.1 == playerAt squares l.2.2

/-- A game whose nine squares carry the given marks. -/
def boardGame (marks : List Val) : Game :=
  { Game.new with
    squares := marks.enum.map fun pm =>
      { position := (pm.1 : Int), player := pm.2, playerHistory := pm.2,
        textContent := pm.2.toText } }

/-- The freshly inflated game, written out. -/
def startGame : Game :=
  { squares := inflateSquares
    moves := [Move.create (-1) 0 0]
    currentMoveIndex := 0
    nextPlayer := Val.str "X"
    winner := Val.null
    view := some { statusLabel := "Next Player: X", moveList := [0] }
    nodes := 1 }

/-- The state of the page after the given clicks on the squares of a fresh
game (`Game.new` only if some click raised an error). -/
def playedGame (ps : List Nat) : Game :=
  match plays start ps with
  | none => Game.new
  | some g => g

/-- The state after the given clicks followed by a jump to move `k`. -/
def jumpedGame (ps : List Nat) (k : Int) : Game :=
  match (playedGame ps).jumpToMove k with
  | none => Game.new
  | some g => g

/-- States of the page: the inflated new game, closed under square activation
and under jumping to the index of a move in the move list. -/
inductive Reachable : Game → Prop
  | start {g : Game} : Game.new.inflate true = some g → Reachable g
  | activate {g g1 : Game} (i : Nat) :
      Reachable g → g.activate i = some g1 → Reachable g1
  | jump {g g1 : Game} (m : Move) :
      Reachable g → m ∈ g.moves → g.jumpToMove m.index = some g1 → Reachable g1

/-- The invariant of the reachable states. For a stored move with list index
`j ≥ 1`, the square it targets remembers the mark `markFor (j - 1)`, shows it
when `j ≤ currentMoveIndex`, and is cleared otherwise. -/
structure Inv (g : Game) : Prop where
  squares_len : g.squares.length = 9
  squares_pos : ∀ (i : Nat) (sq : Square), g.squares[i]? = some sq →
    sq.position = i
  squares_text : ∀ (i : Nat) (sq : Square), g.squares[i]? = some sq →
    sq.textContent = sq.player.toText
  squares_player : ∀ (i : Nat) (sq : Square), g.squares[i]? = some sq →
    sq.player = Val.undefined ∨ sq.player = Val.null ∨ sq.player.truthy = true
  view_ol : ∃ v, g.view = some v ∧ v.moveList = g.moves.map Move.rootElement
  nodes_lt : ∀ m ∈ g.moves, m.rootElement < g.nodes
  nodes_nodup : (g.moves.map Move.rootElement).Nodup
  moves_index : ∀ (j : Nat) (m : Move), g.moves[j]? = some m → m.index = j
  cmi_nonneg : 0 ≤ g.currentMoveIndex
  cmi_lt : g.currentMoveIndex < g.moves.length
  moves_pos : ∀ (j : Nat) (m : Move), g.moves[j]? = some m → 1 ≤ j →
    0 ≤ m.position ∧ m.position < 9
  moves_inj : ∀ (j j1 : Nat) (m m1 : Move), g.moves[j]? = some m →
    g.moves[j1]? = some m1 → 1 ≤ j → 1 ≤ j1 → m.position = m1.position → j = j1
  hist : ∀ (j : Nat) (m : Move), g.moves[j]? = some m → 1 ≤ j →
    ∃ sq, lookup g.squares m.position = some sq ∧
      sq.playerHistory = markFor ((j : Int) - 1) ∧
      sq.player = if (j : Int) ≤ g.currentMoveIndex then markFor ((j : Int) - 1)
        else Val.null
  occupied : ∀ (i : Nat) (sq : Square), g.squares[i]? = some sq →
    sq.player.truthy = true →
    ∃ (j : Nat) (m : Move), g.moves[j]? = some m ∧ 1 ≤ j ∧
      (j : Int) ≤ g.currentMoveIndex ∧ m.position = i
  nextPlayer_eq : g.nextPlayer = markFor g.currentMoveIndex
  winner_cases : g.winner = Val.null ∨ g.winner.truthy = true

/-! ## The component base class (`Component.js`) -/

/-- A listener registration: the target element, the event type and the
listener function (named by an id standing for the identity of the function
object). The same record is what `Component.addEventListener` pushes on
`eventListeners`. -/
structure Listener where
  el : Nat
  type : String
  listener : Nat
  deriving DecidableEq, Repr

/-- The part of the document a component reads and changes: the
`parentElement` link of every node that has one, as pairs (child, parent), and
the listeners registered on elements. -/
structure Dom where
  parents : List (Nat × Nat)
  listeners : List Listener
  deriving DecidableEq, Repr

/-- Property `node.parentElement`; `none` stands for `null`. -/
def Dom.parentElement (d : Dom) (node : Nat) : Option Nat :=
  (d.parents.find? fun p => p.1 == node).map fun p => p.2

/-- DOM method `parent.removeChild(child)`: raises `NotFoundError` (here
`none`) unless `child` is a child of `parent`; otherwise the link is removed. -/
def Dom.removeChild (d : Dom) (parent child : Nat) : Option Dom :=
  if d.parentElement child = some parent then
    some { d with parents := d.parents.filter fun p => p.1 != child }
  else none

/-- DOM method `el.addEventListener(type, listener)`: a registration that is
already present is not added a second time. -/
def Dom.addEventListener (d : Dom) (l : Listener) : Dom :=
  if l ∈ d.listeners then d else { d with listeners := d.listeners ++ [l] }

/-- DOM method `el.removeEventListener(type, listener)`: the matching
registration, if any, is removed. -/
def Dom.removeEventListener (d : Dom) (l : Listener) : Dom :=
  { d with listeners := d.listeners.filter fun r => r != l }

/-- The fields of a `Component`; `rootElement = none` stands for `undefined`. -/
structure Component where
  rootElement : Option Nat
  eventListeners : List Listener
  deriving DecidableEq, Repr

/-- Constructor `new Component()`. -/
def Component.new : Component :=
  { rootElement := none, eventListeners := [] }

/-- Method `Component.setRootElement`. -/
def Component.setRootElement (c : Component) (el : Option Nat) : Component :=
  { c with rootElement := el }

/-- Method `Component.isElement`; an item is `some` element (or document) id,
or `none` for anything that is neither an `Element` nor an `HTMLDocument`. -/
def Component.isElement (item : Option Nat) : Bool :=
  item.isSome

/-- Method `Component.addEventListener`. -/
def Component.addEventListener (c : Component) (d : Dom) (el : Option Nat)
    (type : String) (listener : Nat) : Component × Dom :=
  match el with
  | none => (c, d)
  | some e =>
    ({ c with eventListeners :=
        c.eventListeners ++ [{ el := e, type := type, listener := listener }] },
      d.addEventListener { el := e, type := type, listener := listener })

/-- The loop of `Component.removeEventListeners` over the remaining records. -/
def removeEventListenersLoop : List Listener → Dom → Dom
  | [], d => d
  | l :: rest, d => removeEventListenersLoop rest (d.removeEventListener l)

/-- Method `Component.removeEventListeners`. -/
def Component.removeEventListeners (c : Component) (d : Dom) : Dom :=
  removeEventListenersLoop c.eventListeners d

/-- Method `Component.deflate`; the fields of the component are not assigned, so
only the document changes. `none` stands for a raised error. -/
def Component.deflate (c : Component) (d : Dom) : Option Dom :=
  match c.rootElement with
  | none => some d
  | some root =>
    match d.parentElement root with
    | none => some d
    | some _ =>
      let d1 := c.removeEventListeners d
      match d1.parentElement root with
      | none => none
      | some parent => d1.removeChild parent root

/-- A sample component: root element 1, with a click listener recorded on
element 1 and a keydown listener recorded on element 2. -/
def sampleComponent : Component :=
  { rootElement := some 1
    eventListeners :=
      [{ el := 1, type := "click", listener := 7 },
       { el := 2, type := "keydown", listener := 8 }] }

/-- A sample document: node 1 is a child of node 0, node 3 a child of node 0;
the two listeners of `sampleComponent` and a foreign one are registered. -/
def sampleDom : Dom :=
  { parents := [(1, 0), (3, 0)]
    listeners :=
      [{ el := 1, type := "click", listener := 7 },
       { el := 3, type := "click", listener := 9 },
       { el := 2, type := "keydown", listener := 8 }] }

/-! ## Array reads and writes -/

theorem lookup_natCast {α : Type} (xs : List α) (i : Nat) :
    lookup xs (i : Int) = xs[i]? := by
  simp [lookup]

theorem lookup_some_iff {α : Type} (xs : List α) (p : Int) (x : α) :
    lookup xs p = some x ↔ ∃ i : Nat, p = i ∧ xs[i]? = some x := by
  constructor
  · intro h
    unfold lookup at h
    split at h
    · cases h
    · exact ⟨p.toNat, by omega, h⟩
  · rintro ⟨i, rfl, h⟩
    simpa [lookup] using h

theorem length_update {α : Type} (xs : List α) (p : Int) (x : α) :
    (update xs p x).length = xs.length := by
  unfold update
  split <;> simp

theorem update_natCast {α : Type} (xs : List α) (i : Nat) (x : α) :
    update xs (i : Int) x = xs.set i x := by
  simp [update]

theorem lookup_update_self {α : Type} (xs : List α) (p : Int) (x : α)
    (h0 : 0 ≤ p) (h1 : p < xs.length) : lookup (update xs p x) p = some x := by
  obtain ⟨i, rfl⟩ : ∃ i : Nat, p = i := ⟨p.toNat, by omega⟩
  have hi : i < xs.length := by exact_mod_cast h1
  rw [update_natCast, lookup_natCast, List.getElem?_set_self hi]

theorem lookup_update_ne {α : Type} (xs : List α) (p q : Int) (x : α)
    (h : p ≠ q) : lookup (update xs p x) q = lookup xs q := by
  unfold lookup update
  by_cases hq : q < 0
  · simp [hq]
  · by_cases hp : p < 0
    · simp [hp]
    · simp only [hq, hp, if_false]
      rw [List.getElem?_set_ne]
      omega

theorem lookup_isSome {α : Type} (xs : List α) (p : Int) (h0 : 0 ≤ p)
    (h1 : p < xs.length) : ∃ x, lookup xs p = some x := by
  obtain ⟨i, rfl⟩ : ∃ i : Nat, p = i := ⟨p.toNat, by omega⟩
  have hi : i < xs.length := by exact_mod_cast h1
  exact ⟨xs[i], by rw [lookup_natCast, List.getElem?_eq_getElem hi]⟩

/-! ## The winner computation -/

theorem playerAt_eq (squares : List Square) (a : Nat) (h : a < squares.length) :
    playerAt squares a = (squares[a]).player := by
  simp [playerAt, List.getElem?_eq_getElem h]

theorem calculateWinnerLoop_eq (squares : List Square)
    (ls : List (Nat × Nat × Nat))
    (h : ∀ l ∈ ls, l.1 < squares.length ∧ l.2.1 < squares.length ∧
      l.2.2 < squares.length) :
    calculateWinnerLoop squares ls =
      some (match ls.find? (lineFull squares) with
        | none => Val.null
        | some l => playerAt squares l.1) := by
  induction ls with
  | nil => rfl
  | cons l rest ih =>
    obtain ⟨a, b, c⟩ := l
    have hl := h (a, b, c) (List.mem_cons_self _ _)
    have ih1 := ih (fun l hl => h l (List.mem_cons_of_mem _ hl))
    obtain ⟨ha, hb, hc⟩ := hl
    simp only at ha hb hc
    have pa := playerAt_eq squares a ha
    have pb := playerAt_eq squares b hb
    have pc := playerAt_eq squares c hc
    simp only [calculateWinnerLoop, List.find?_cons,
      List.getElem?_eq_getElem ha, List.getElem?_eq_getElem hb,
      List.getElem?_eq_getElem hc]
    by_cases h1 : (squares[a]).player.truthy = true
    · by_cases h2 : (squares[a]).player = (squares[b]).player
      · by_cases h3 : (squares[a]).player = (squares[c]).player
        · have hf : lineFull squares (a, b, c) = true := by
            simp [lineFull, pa, pb, pc, h1, ← h2, ← h3]
          simp [h1, ← h2, ← h3, hf, pa]
        · have hf : lineFull squares (a, b, c) = false := by
            simp [lineFull, pa, pb, pc, h1, ← h2, h3]
          simp [h1, ← h2, h3, hf, ih1]
      · have hf : lineFull squares (a, b, c) = false := by
          simp [lineFull, pa, pb, pc, h1, h2]
        simp [h1, h2, hf, ih1]
    · have hf : lineFull squares (a, b, c) = false := by
        simp [lineFull, pa, pb, pc, h1]
      simp [h1, hf, ih1]

theorem lines_bound : ∀ l ∈ lines, l.1 < 9 ∧ l.2.1 < 9 ∧ l.2.2 < 9 := by
  decide

theorem calculateWinner_eq (g : Game) (h : g.squares.length = 9) :
    g.calculateWinner =
      some (match lines.find? (lineFull g.squares) with
        | none => Val.null
        | some l => playerAt g.squares l.1) := by
  unfold Game.calculateWinner
  apply calculateWinnerLoop_eq
  rw [h]
  exact lines_bound

theorem calculateWinner_cases (g : Game) (h : g.squares.length = 9) :
    ∃ w, g.calculateWinner = some w ∧ (w = Val.null ∨ w.truthy = true) := by
  rw [calculateWinner_eq g h]
  refine ⟨_, rfl, ?_⟩
  cases hf : lines.find? (lineFull g.squares) with
  | none => exact Or.inl rfl
  | some l =>
    right
    have := List.find?_some hf
    simp only [lineFull, Bool.and_eq_true] at this
    exact this.1.1

/-! ## Status update and move-list truncation -/

theorem updateGameStatus_eq (g : Game) (v : View) (h9 : g.squares.length = 9)
    (hv : g.view = some v) :
    ∃ w, g.calculateWinner = some w ∧ (w = Val.null ∨ w.truthy = true) ∧
      g.updateGameStatus = some { g with
        nextPlayer := markFor g.currentMoveIndex
        winner := w
        view := some { v with
          statusLabel :=
            if w.truthy then "Winner: " ++ w.toStr
            else "Next Player: " ++ (markFor g.currentMoveIndex).toStr } } := by
  obtain ⟨w, hw, hc⟩ := calculateWinner_cases g h9
  refine ⟨w, hw, hc, ?_⟩
  have hw1 : calculateWinnerLoop g.squares lines = some w := hw
  simp only [Game.updateGameStatus, Game.calculateWinner, hw1, hv, markFor]

theorem refreshMovesLoop_eq (cmi : Int) (pre : List Move)
    (hpre : (pre.length : Int) = cmi + 1) (suf : List Move) :
    ∀ fuel : Nat, suf.length < fuel →
      ((pre ++ suf).map Move.rootElement).Nodup →
      refreshMovesLoop cmi fuel (((pre ++ suf).length : Int) - 1) (pre ++ suf)
        ((pre ++ suf).map Move.rootElement) =
        some (pre, pre.map Move.rootElement) := by
  induction suf using List.reverseRecOn with
  | nil =>
    intro fuel hfuel _
    obtain ⟨n, rfl⟩ : ∃ n, fuel = n + 1 := ⟨fuel - 1, by simp at hfuel; omega⟩
    have : ¬ ((pre.length : Int) - 1 > cmi) := by omega
    simp [refreshMovesLoop, this]
  | append_singleton suf m ih =>
    intro fuel hfuel hnd
    obtain ⟨n, rfl⟩ : ∃ n, fuel = n + 1 := ⟨fuel - 1, by simp at hfuel; omega⟩
    have hlen : (((pre ++ (suf ++ [m])).length : Int) - 1) =
        ((pre ++ suf).length : Int) := by
      simp only [List.length_append, List.length_singleton]; push_cast; ring
    have hgt : ((pre ++ suf).length : Int) > cmi := by
      simp only [List.length_append]; push_cast; omega
    have hassoc : pre ++ (suf ++ [m]) = (pre ++ suf) ++ [m] := by simp
    have hnd1 : (((pre ++ suf).map Move.rootElement) ++ [m.rootElement]).Nodup := by
      rw [hassoc, List.map_append, List.map_singleton] at hnd
      exact hnd
    have hnotin : m.rootElement ∉ (pre ++ suf).map Move.rootElement := by
      intro hmem
      have := (List.nodup_append.1 hnd1).2.2
      exact this hmem (List.mem_singleton_self _)
    have hdefl : m.deflate ((pre ++ (suf ++ [m])).map Move.rootElement) =
        (pre ++ suf).map Move.rootElement := by
      rw [hassoc, List.map_append, List.map_singleton]
      unfold Move.deflate
      rw [if_pos (by simp), List.erase_append_right _ hnotin]
      simp
    rw [refreshMovesLoop, hlen, if_pos hgt]
    have hlast : (pre ++ (suf ++ [m])).getLast? = some m := by
      rw [hassoc]; simp
    have hdrop : (pre ++ (suf ++ [m])).dropLast = pre ++ suf := by
      rw [hassoc]; simp
    rw [hlast]
    simp only [hdefl, hdrop]
    have hnd2 : ((pre ++ suf).map Move.rootElement).Nodup :=
      (List.nodup_append.1 hnd1).1
    have := ih n (by simp at hfuel; omega) hnd2
    exact this

theorem refreshMoves_eq (g : Game) (v : View) (n : Nat)
    (hv : g.view = some v) (hml : v.moveList = g.moves.map Move.rootElement)
    (hnd : (g.moves.map Move.rootElement).Nodup)
    (hn : (n : Int) = g.currentMoveIndex + 1) (hle : n ≤ g.moves.length) :
    g.refreshMoves = some { g with
      moves := g.moves.take n
      view := some { v with moveList := (g.moves.take n).map Move.rootElement } } := by
  have hsplit : g.moves.take n ++ g.moves.drop n = g.moves := List.take_append_drop n _
  have hpre : ((g.moves.take n).length : Int) = g.currentMoveIndex + 1 := by
    rw [List.length_take, Nat.min_eq_left hle]; exact hn
  have hloop := refreshMovesLoop_eq g.currentMoveIndex (g.moves.take n) hpre
    (g.moves.drop n) (g.moves.length + 1)
    (by rw [List.length_drop]; omega) (by rw [hsplit]; exact hnd)
  rw [hsplit] at hloop
  simp only [Game.refreshMoves, hv, hml, hloop, Option.map_some']

theorem onMove_eq (g : Game) (v : View) (n : Nat) (position : Int)
    (h9 : g.squares.length = 9)
    (hv : g.view = some v) (hml : v.moveList = g.moves.map Move.rootElement)
    (hnd : (g.moves.map Move.rootElement).Nodup)
    (hn : (n : Int) = g.currentMoveIndex + 1) (hle : n ≤ g.moves.length) :
    ∃ w, g.calculateWinner = some w ∧ (w = Val.null ∨ w.truthy = true) ∧
      g.onMove position = some
        { squares := g.squares
          moves := g.moves.take n ++ [Move.create position n g.nodes]
          currentMoveIndex := n
          nextPlayer := markFor n
          winner := w
          view := some
            { statusLabel :=
                if w.truthy then "Winner: " ++ w.toStr
                else "Next Player: " ++ (markFor n).toStr
              moveList := (g.moves.take n).map Move.rootElement ++ [g.nodes] }
          nodes := g.nodes + 1 } := by
  have hr := refreshMoves_eq g v n hv hml hnd hn hle
  obtain ⟨w, hw, hc, hu⟩ := updateGameStatus_eq
    { squares := g.squares
      moves := g.moves.take n ++ [Move.create position n g.nodes]
      currentMoveIndex := n
      nextPlayer := g.nextPlayer
      winner := g.winner
      view := some { v with
        moveList := (g.moves.take n).map Move.rootElement ++ [g.nodes] }
      nodes := g.nodes + 1 }
    { v with moveList := (g.moves.take n).map Move.rootElement ++ [g.nodes] }
    h9 rfl
  refine ⟨w, hw, hc, ?_⟩
  simp only [Game.onMove, hr, ← hn, Move.create]
  simpa [Move.create] using hu

/-! ## The loop of `jumpToMove` -/

theorem jumpToMoveLoop_spec (k : Int) (moves : List Move)
    (hpos : ∀ (j : Nat) (m : Move), moves[j]? = some m → 1 ≤ j →
      0 ≤ m.position ∧ m.position < 9)
    (hinj : ∀ (j j1 : Nat) (m m1 : Move), moves[j]? = some m →
      moves[j1]? = some m1 → 1 ≤ j → 1 ≤ j1 → m.position = m1.position → j = j1) :
    ∀ (i : Nat) (squares : List Square) (np : Val), i < moves.length →
      squares.length = 9 →
      ∃ squares1 np1, jumpToMoveLoop k moves i squares np = some (squares1, np1) ∧
        squares1.length = 9 ∧
        (∀ (j : Nat) (m : Move) (sq : Square), 1 ≤ j → j ≤ i →
          moves[j]? = some m → lookup squares m.position = some sq →
          lookup squares1 m.position =
            some (if (j : Int) > k then sq.clear else sq.refresh)) ∧
        (∀ q : Int, (∀ (j : Nat) (m : Move), 1 ≤ j → j ≤ i →
          moves[j]? = some m → m.position ≠ q) →
          lookup squares1 q = lookup squares q) := by
  intro i
  induction i with
  | zero =>
    intro squares np _ h9
    refine ⟨squares, np, rfl, h9, ?_, fun _ _ => rfl⟩
    intro j m sq h1 h0
    omega
  | succ i ih =>
    intro squares np hi h9
    have hm : moves[i + 1]? = some (moves[i + 1]) := List.getElem?_eq_getElem hi
    obtain ⟨hp0, hp9⟩ := hpos (i + 1) _ hm (by omega)
    obtain ⟨sq0, hsq0⟩ := lookup_isSome squares (moves[i + 1]).position hp0
      (by rw [h9]; exact hp9)
    obtain ⟨squares1, np1, hloop, hlen, hA, hB⟩ :=
      ih (update squares (moves[i + 1]).position
        (if ((i + 1 : Nat) : Int) > k then sq0.clear else sq0.refresh))
        sq0.player (by omega) (by rw [length_update]; exact h9)
    refine ⟨squares1, np1, ?_, hlen, ?_, ?_⟩
    · simp only [jumpToMoveLoop, hm, hsq0]
      exact hloop
    · intro j m sq h1 hj hjm hsq
      by_cases hji : j = i + 1
      · subst hji
        have hmm : m = moves[i + 1] := by
          rw [hm] at hjm; exact (Option.some.inj hjm).symm
        subst hmm
        have hsq1 : sq = sq0 := by
          rw [hsq0] at hsq; exact (Option.some.inj hsq).symm
        subst hsq1
        rw [hB (moves[i + 1]).position]
        · exact lookup_update_self _ _ _ hp0 (by rw [h9]; exact hp9)
        · intro j1 m1 h11 hj1 hjm1 heq
          have := hinj j1 (i + 1) m1 _ hjm1 hm h11 (by omega) heq
          omega
      · have hne : (moves[i + 1]).position ≠ m.position := by
          intro heq
          have := hinj (i + 1) j _ m hm hjm (by omega) h1 heq
          omega
        apply hA j m sq h1 (by omega) hjm
        rw [lookup_update_ne _ _ _ _ hne]
        exact hsq
    · intro q hq
      rw [hB q (fun j m h1 hj hjm => hq j m h1 (by omega) hjm)]
      apply lookup_update_ne
      exact hq (i + 1) _ (by omega) (le_refl _) hm

/-! ## The invariant -/

theorem markFor_truthy (n : Int) : (markFor n).truthy = true := by
  unfold markFor
  split <;> decide

theorem markFor_cases (n : Int) : markFor n = Val.str "X" ∨ markFor n = Val.str "0" := by
  unfold markFor
  split
  · exact Or.inl rfl
  · exact Or.inr rfl

theorem getElem?_take_concat {α : Type} (xs : List α) (n : Nat)
    (hn : n ≤ xs.length) (x : α) (j : Nat) :
    (xs.take n ++ [x])[j]? =
      if j < n then xs[j]? else if j = n then some x else none := by
  have hl : (xs.take n).length = n := by
    rw [List.length_take, Nat.min_eq_left hn]
  by_cases h1 : j < n
  · rw [if_pos h1, List.getElem?_append_left (by rw [hl]; exact h1),
      List.getElem?_take_of_lt h1]
  · rw [if_neg h1, List.getElem?_append_right (by rw [hl]; omega), hl]
    by_cases h2 : j = n
    · subst h2; simp
    · rw [if_neg h2]
      obtain ⟨d, hd⟩ : ∃ d, j - n = d + 1 := ⟨j - n - 1, by omega⟩
      rw [hd]; rfl

theorem start_eq : Game.new.inflate true = some startGame := by
  decide

theorem inv_start (g : Game) (h : Game.new.inflate true = some g) : Inv g := by
  rw [start_eq] at h
  cases h
  unfold startGame
  have hsq : ∀ (i : Nat) (sq : Square), inflateSquares[i]? = some sq →
      sq = Square.create i := by
    intro i sq hi
    have h9 : i < 9 := by
      by_contra hge
      have : inflateSquares[i]? = none :=
        List.getElem?_eq_none (by
          have : inflateSquares.length = 9 := by decide
          omega)
      rw [this] at hi; cases hi
    interval_cases i <;> exact (Option.some.inj hi).symm
  have hmv : ∀ (j : Nat) (m : Move), [Move.create (-1) 0 0][j]? = some m →
      1 ≤ j → False := by
    intro j m hj h1
    obtain ⟨d, rfl⟩ : ∃ d, j = d + 1 := ⟨j - 1, by omega⟩
    simp at hj
  refine
    { squares_len := by decide
      squares_pos := fun i sq hi => by rw [hsq i sq hi]; rfl
      squares_text := fun i sq hi => by rw [hsq i sq hi]; rfl
      squares_player := fun i sq hi => by rw [hsq i sq hi]; exact Or.inl rfl
      view_ol := ⟨_, rfl, rfl⟩
      nodes_lt := by
        intro m hm
        simp only [List.mem_singleton] at hm
        subst hm; decide
      nodes_nodup := by decide
      moves_index := by
        intro j m hj
        cases j with
        | zero => simp at hj; subst hj; rfl
        | succ d => simp at hj
      cmi_nonneg := by decide
      cmi_lt := by decide
      moves_pos := fun j m hj h1 => (hmv j m hj h1).elim
      moves_inj := fun j _ m _ hj _ h1 _ _ => (hmv j m hj h1).elim
      hist := fun j m hj h1 => (hmv j m hj h1).elim
      occupied := by
        intro i sq hi ht
        rw [hsq i sq hi] at ht
        cases ht
      nextPlayer_eq := by decide
      winner_cases := Or.inl rfl }

theorem activate_eq (g : Game) (hinv : Inv g) (i : Nat) (sq : Square)
    (hsq : g.squares[i]? = some sq) (hp : sq.player.truthy = false)
    (hw : g.winner.truthy = false) (n : Nat) (hn : (n : Int) = g.currentMoveIndex) :
    ∃ w, (w = Val.null ∨ w.truthy = true) ∧
      g.activate i = some
        { squares := (g.squares.set i
            { sq with playerHistory := markFor n, player := markFor n,
                      textContent := (markFor n).toText })
          moves := g.moves.take (n + 1) ++ [Move.create i ((n + 1 : Nat) : Int) g.nodes]
          currentMoveIndex := ((n + 1 : Nat) : Int)
          nextPlayer := markFor ((n + 1 : Nat) : Int)
          winner := w
          view := some
            { statusLabel :=
                if w.truthy then "Winner: " ++ w.toStr
                else "Next Player: " ++ (markFor ((n + 1 : Nat) : Int)).toStr
              moveList := (g.moves.take (n + 1)).map Move.rootElement ++ [g.nodes] }
          nodes := g.nodes + 1 } := by
  obtain ⟨v, hv, hml⟩ := hinv.view_ol
  have hlt := hinv.cmi_lt
  obtain ⟨w, _, hc, hon⟩ := onMove_eq
    { g with squares := (g.squares.set i
        (Square.refresh { sq with playerHistory := g.nextPlayer })) }
    v (n + 1) sq.position
    (by simp only [List.length_set]; exact hinv.squares_len)
    hv hml hinv.nodes_nodup
    (by show ((n + 1 : Nat) : Int) = g.currentMoveIndex + 1; push_cast; omega)
    (by show n + 1 ≤ g.moves.length; omega)
  refine ⟨w, hc, ?_⟩
  simp only [Game.activate, hsq, hp, hw, Bool.not_false, Bool.and_self, if_true]
  rw [hon]
  simp only [Square.refresh, hinv.nextPlayer_eq, ← hn, hinv.squares_pos i sq hsq]

theorem getElem?_lt_length {α : Type} (xs : List α) (j : Nat) (x : α)
    (h : xs[j]? = some x) : j < xs.length := by
  obtain ⟨hj, _⟩ := List.getElem?_eq_some.1 h
  exact hj

theorem inv_play (g : Game) (hinv : Inv g) (i : Nat) (sq : Square)
    (hsq : g.squares[i]? = some sq) (hp : sq.player.truthy = false)
    (n : Nat) (hn : (n : Int) = g.currentMoveIndex) (w : Val)
    (hc : w = Val.null ∨ w.truthy = true) (s : String) :
    Inv
      { squares := (g.squares.set i
          { sq with playerHistory := markFor n, player := markFor n,
                    textContent := (markFor n).toText })
        moves := g.moves.take (n + 1) ++ [Move.create i ((n + 1 : Nat) : Int) g.nodes]
        currentMoveIndex := ((n + 1 : Nat) : Int)
        nextPlayer := markFor ((n + 1 : Nat) : Int)
        winner := w
        view := some
          { statusLabel := s
            moveList := (g.moves.take (n + 1)).map Move.rootElement ++ [g.nodes] }
        nodes := g.nodes + 1 } := by
  have hlt := hinv.cmi_lt
  have hle : n + 1 ≤ g.moves.length := by omega
  have hi9 : i < g.squares.length := getElem?_lt_length _ _ _ hsq
  have h9 := hinv.squares_len
  have hspos := hinv.squares_pos i sq hsq
  -- reading the new move list
  have hget : ∀ (j : Nat) (m : Move),
      (g.moves.take (n + 1) ++ [Move.create i ((n + 1 : Nat) : Int) g.nodes])[j]? = some m →
      (j < n + 1 ∧ g.moves[j]? = some m) ∨
      (j = n + 1 ∧ m = Move.create i ((n + 1 : Nat) : Int) g.nodes) := by
    intro j m hj
    rw [getElem?_take_concat _ _ hle] at hj
    by_cases h1 : j < n + 1
    · rw [if_pos h1] at hj; exact Or.inl ⟨h1, hj⟩
    · rw [if_neg h1] at hj
      by_cases h2 : j = n + 1
      · rw [if_pos h2] at hj; exact Or.inr ⟨h2, (Option.some.inj hj).symm⟩
      · rw [if_neg h2] at hj; cases hj
  -- an active old move never targets the square played
  have hold : ∀ (j : Nat) (m : Move), j < n + 1 → g.moves[j]? = some m → 1 ≤ j →
      m.position ≠ (i : Int) := by
    intro j m hj hm h1 heq
    obtain ⟨sq1, hl, _, hpl⟩ := hinv.hist j m hm h1
    rw [heq, lookup_natCast, hsq] at hl
    cases hl
    rw [if_pos (by omega)] at hpl
    rw [hpl, markFor_truthy] at hp
    cases hp
  refine
    { squares_len := by simp only [List.length_set]; exact h9
      squares_pos := ?_
      squares_text := ?_
      squares_player := ?_
      view_ol := ⟨_, rfl, by simp [Move.create]⟩
      nodes_lt := ?_
      nodes_nodup := ?_
      moves_index := ?_
      cmi_nonneg := by simp only; omega
      cmi_lt := by
        simp only [List.length_append, List.length_take, List.length_singleton,
          Nat.min_eq_left hle]
        omega
      moves_pos := ?_
      moves_inj := ?_
      hist := ?_
      occupied := ?_
      nextPlayer_eq := rfl
      winner_cases := hc }
  · intro i1 sq1 h1
    simp only [List.getElem?_set] at h1
    by_cases he : i = i1
    · rw [if_pos he, if_pos hi9] at h1
      cases h1
      simp only; rw [hspos, he]
    · rw [if_neg he] at h1
      exact hinv.squares_pos i1 sq1 h1
  · intro i1 sq1 h1
    simp only [List.getElem?_set] at h1
    by_cases he : i = i1
    · rw [if_pos he, if_pos hi9] at h1
      cases h1
      rfl
    · rw [if_neg he] at h1
      exact hinv.squares_text i1 sq1 h1
  · intro i1 sq1 h1
    simp only [List.getElem?_set] at h1
    by_cases he : i = i1
    · rw [if_pos he, if_pos hi9] at h1
      cases h1
      exact Or.inr (Or.inr (markFor_truthy _))
    · rw [if_neg he] at h1
      exact hinv.squares_player i1 sq1 h1
  · intro m hm
    simp only [List.mem_append, List.mem_singleton] at hm
    rcases hm with hm | hm
    · have := hinv.nodes_lt m (List.mem_of_mem_take hm)
      simp only; omega
    · subst hm; simp [Move.create]
  · simp only [List.map_append, List.map_singleton]
    rw [List.nodup_append]
    refine ⟨List.Nodup.sublist ((List.take_sublist _ _).map _) hinv.nodes_nodup,
      List.nodup_singleton _, ?_⟩
    intro a ha hb
    simp only [Move.create, List.mem_singleton] at hb
    subst hb
    obtain ⟨m, hm, hma⟩ := List.mem_map.1 ha
    have := hinv.nodes_lt m (List.mem_of_mem_take hm)
    omega
  · intro j m hj
    rcases hget j m hj with ⟨_, hm⟩ | ⟨hj1, hm⟩
    · exact hinv.moves_index j m hm
    · subst hm; subst hj1; rfl
  · intro j m hj h1
    rcases hget j m hj with ⟨_, hm⟩ | ⟨hj1, hm⟩
    · exact hinv.moves_pos j m hm h1
    · subst hm
      simp only [Move.create]
      omega
  · intro j j1 m m1 hj hj1 h1 h11 heq
    rcases hget j m hj with ⟨hlt1, hm⟩ | ⟨hje, hm⟩
    · rcases hget j1 m1 hj1 with ⟨_, hm1⟩ | ⟨_, hm1⟩
      · exact hinv.moves_inj j j1 m m1 hm hm1 h1 h11 heq
      · subst hm1
        exact absurd heq (hold j m hlt1 hm h1)
    · rcases hget j1 m1 hj1 with ⟨hlt1, hm1⟩ | ⟨hje1, _⟩
      · subst hm
        exact absurd heq.symm (hold j1 m1 hlt1 hm1 h11)
      · omega
  · intro j m hj h1
    rcases hget j m hj with ⟨hlt1, hm⟩ | ⟨hje, hm⟩
    · obtain ⟨sq1, hl, hph, hpl⟩ := hinv.hist j m hm h1
      refine ⟨sq1, ?_, hph, ?_⟩
      · rw [← update_natCast, lookup_update_ne _ _ _ _ (Ne.symm (hold j m hlt1 hm h1))]
        exact hl
      · rw [hpl, if_pos (by omega), if_pos (by push_cast; omega)]
    · subst hm
      refine ⟨{ sq with playerHistory := markFor n, player := markFor n,
                        textContent := (markFor n).toText }, ?_, ?_, ?_⟩
      · simp only [Move.create]
        rw [lookup_natCast, List.getElem?_set_self hi9]
      · simp only [hje]; congr 1; push_cast; ring
      · simp only [hje]
        rw [if_pos (le_refl _)]; congr 1; push_cast; ring
  · intro i1 sq1 h1 ht
    simp only [List.getElem?_set] at h1
    by_cases he : i = i1
    · refine ⟨n + 1, Move.create i ((n + 1 : Nat) : Int) g.nodes, ?_, by omega,
        le_refl _, by rw [← he]; rfl⟩
      rw [getElem?_take_concat _ _ hle, if_neg (by omega), if_pos rfl]
    · rw [if_neg he] at h1
      obtain ⟨j, m, hm, hj1, hjc, hmp⟩ := hinv.occupied i1 sq1 h1 ht
      refine ⟨j, m, ?_, hj1, by push_cast; omega, hmp⟩
      rw [getElem?_take_concat _ _ hle, if_pos (by omega)]
      exact hm

theorem jumpToMove_eq (g : Game) (hinv : Inv g) (k : Int) :
    ∃ squares1 w, squares1.length = 9 ∧
      (∀ (j : Nat) (m : Move) (sq : Square), 1 ≤ j → g.moves[j]? = some m →
        lookup g.squares m.position = some sq →
        lookup squares1 m.position =
          some (if (j : Int) > k then sq.clear else sq.refresh)) ∧
      (∀ q : Int, (∀ (j : Nat) (m : Move), 1 ≤ j → g.moves[j]? = some m →
        m.position ≠ q) → lookup squares1 q = lookup g.squares q) ∧
      calculateWinnerLoop squares1 lines = some w ∧
      (w = Val.null ∨ w.truthy = true) ∧
      g.jumpToMove k = some
        { squares := squares1
          moves := g.moves
          currentMoveIndex := k
          nextPlayer := markFor k
          winner := Val.null
          view := some
            { statusLabel :=
                if w.truthy then "Winner: " ++ w.toStr
                else "Next Player: " ++ (markFor k).toStr
              moveList := g.moves.map Move.rootElement }
          nodes := g.nodes } := by
  obtain ⟨v, hv, hml⟩ := hinv.view_ol
  have hlt := hinv.cmi_lt
  have hnn := hinv.cmi_nonneg
  obtain ⟨squares1, np1, hloop, hlen, hA, hB⟩ :=
    jumpToMoveLoop_spec k g.moves hinv.moves_pos hinv.moves_inj
      (g.moves.length - 1) g.squares g.nextPlayer (by omega) hinv.squares_len
  obtain ⟨w, hw, hc, hu⟩ := updateGameStatus_eq
    { g with squares := squares1, nextPlayer := np1, currentMoveIndex := k } v
    hlen hv
  refine ⟨squares1, w, hlen, ?_, ?_, hw, hc, ?_⟩
  · intro j m sq h1 hjm hsq
    have := getElem?_lt_length _ _ _ hjm
    exact hA j m sq h1 (by omega) hjm hsq
  · intro q hq
    exact hB q (fun j m h1 _ hjm => hq j m h1 hjm)
  · simp only [Game.jumpToMove, hloop, hu, hml]

theorem inv_jump (g : Game) (hinv : Inv g) (k : Nat) (hk : k < g.moves.length)
    (g1 : Game) (hj : g.jumpToMove k = some g1) : Inv g1 := by
  obtain ⟨squares1, w, hlen, hA, hB, _, _, heq⟩ := jumpToMove_eq g hinv k
  rw [heq] at hj
  cases hj
  -- every square is either the target of exactly one stored move, or untouched
  have hsplit : ∀ (i : Nat) (sq1 : Square), squares1[i]? = some sq1 →
      (∃ (j : Nat) (m : Move) (sq : Square), 1 ≤ j ∧ g.moves[j]? = some m ∧
        m.position = i ∧ g.squares[i]? = some sq ∧
        sq1 = if (j : Int) > k then sq.clear else sq.refresh) ∨
      ((∀ (j : Nat) (m : Move), 1 ≤ j → g.moves[j]? = some m → m.position ≠ i) ∧
        g.squares[i]? = some sq1) := by
    intro i sq1 hi
    by_cases hex : ∃ (j : Nat) (m : Move), 1 ≤ j ∧ g.moves[j]? = some m ∧ m.position = i
    · left
      obtain ⟨j, m, h1, hjm, hmp⟩ := hex
      obtain ⟨sq, hl, _, _⟩ := hinv.hist j m hjm h1
      have := hA j m sq h1 hjm hl
      rw [hmp, lookup_natCast, hi] at this
      rw [hmp, lookup_natCast] at hl
      exact ⟨j, m, sq, h1, hjm, hmp, hl, Option.some.inj this⟩
    · right
      have hno : ∀ (j : Nat) (m : Move), 1 ≤ j → g.moves[j]? = some m →
          m.position ≠ i := fun j m h1 hjm hmp => hex ⟨j, m, h1, hjm, hmp⟩
      refine ⟨hno, ?_⟩
      have := hB i hno
      rw [lookup_natCast, lookup_natCast, hi] at this
      exact this.symm
  refine
    { squares_len := hlen
      squares_pos := ?_
      squares_text := ?_
      squares_player := ?_
      view_ol := ⟨_, rfl, rfl⟩
      nodes_lt := hinv.nodes_lt
      nodes_nodup := hinv.nodes_nodup
      moves_index := hinv.moves_index
      cmi_nonneg := by simp only; omega
      cmi_lt := by simp only; omega
      moves_pos := hinv.moves_pos
      moves_inj := hinv.moves_inj
      hist := ?_
      occupied := ?_
      nextPlayer_eq := rfl
      winner_cases := Or.inl rfl }
  · intro i sq1 hi
    rcases hsplit i sq1 hi with ⟨j, m, sq, _, _, _, hsq, rfl⟩ | ⟨_, hsq⟩
    · have := hinv.squares_pos i sq hsq
      split <;> exact this
    · exact hinv.squares_pos i sq1 hsq
  · intro i sq1 hi
    rcases hsplit i sq1 hi with ⟨j, m, sq, _, _, _, hsq, rfl⟩ | ⟨_, hsq⟩
    · split <;> rfl
    · exact hinv.squares_text i sq1 hsq
  · intro i sq1 hi
    rcases hsplit i sq1 hi with ⟨j, m, sq, h1, hjm, hmp, hsq, rfl⟩ | ⟨_, hsq⟩
    · obtain ⟨sq0, hl, hph, _⟩ := hinv.hist j m hjm h1
      rw [hmp, lookup_natCast, hsq] at hl
      cases hl
      split
      · exact Or.inr (Or.inl rfl)
      · right; right
        show sq.playerHistory.truthy = true
        rw [hph]; exact markFor_truthy _
    · exact hinv.squares_player i sq1 hsq
  · intro j m hjm h1
    obtain ⟨sq, hl, hph, _⟩ := hinv.hist j m hjm h1
    refine ⟨_, hA j m sq h1 hjm hl, ?_, ?_⟩
    · split <;> exact hph
    · by_cases hjk : (j : Int) > k
      · rw [if_pos hjk, if_neg (by simp only; omega)]; rfl
      · rw [if_neg hjk, if_pos (by simp only; omega)]; exact hph
  · intro i sq1 hi ht
    rcases hsplit i sq1 hi with ⟨j, m, sq, h1, hjm, hmp, hsq, rfl⟩ | ⟨hno, hsq⟩
    · by_cases hjk : (j : Int) > k
      · rw [if_pos hjk] at ht; cases ht
      · exact ⟨j, m, hjm, h1, by simp only; omega, hmp⟩
    · obtain ⟨j, m, hjm, h1, _, hmp⟩ := hinv.occupied i sq1 hsq ht
      exact absurd hmp (hno j m h1 hjm)

theorem inv_activate (g : Game) (hinv : Inv g) (i : Nat) (g1 : Game)
    (h : g.activate i = some g1) : Inv g1 := by
  cases hsq : g.squares[i]? with
  | none => simp [Game.activate, hsq] at h
  | some sq =>
    by_cases hp : sq.player.truthy = true
    · simp [Game.activate, hsq, hp] at h
      rw [← h]; exact hinv
    · by_cases hw : g.winner.truthy = true
      · simp [Game.activate, hsq, hw] at h
        rw [← h]; exact hinv
      · simp only [Bool.not_eq_true] at hp hw
        obtain ⟨n, hn⟩ : ∃ n : Nat, (n : Int) = g.currentMoveIndex :=
          ⟨g.currentMoveIndex.toNat, Int.toNat_of_nonneg hinv.cmi_nonneg⟩
        obtain ⟨w, hc, heq⟩ := activate_eq g hinv i sq hsq hp hw n hn
        rw [heq] at h
        cases h
        exact inv_play g hinv i sq hsq hp n hn w hc _

theorem mem_moves_index (g : Game) (hinv : Inv g) (m : Move) (hm : m ∈ g.moves) :
    ∃ k : Nat, m.index = k ∧ k < g.moves.length ∧ g.moves[k]? = some m := by
  obtain ⟨k, hk⟩ := List.mem_iff_getElem?.1 hm
  exact ⟨k, hinv.moves_index k m hk, getElem?_lt_length _ _ _ hk, hk⟩

theorem reachable_inv (g : Game) (h : Reachable g) : Inv g := by
  induction h with
  | start h => exact inv_start _ h
  | activate i _ h ih => exact inv_activate _ ih i _ h
  | jump m _ hm h ih =>
    obtain ⟨k, hk, hlt, _⟩ := mem_moves_index _ ih m hm
    rw [hk] at h
    exact inv_jump _ ih k hlt _ h

theorem plays_none (ps : List Nat) : plays none ps = none := by
  induction ps with
  | nil => rfl
  | cons p ps ih => simpa [plays] using ih

theorem reachable_plays (ps : List Nat) :
    ∀ g g1 : Game, Reachable g → plays (some g) ps = some g1 → Reachable g1 := by
  induction ps with
  | nil =>
    intro g g1 hr h
    cases h
    exact hr
  | cons p ps ih =>
    intro g g1 hr h
    simp only [plays, Option.some_bind] at h
    cases ha : g.activate p with
    | none => rw [ha, plays_none] at h; cases h
    | some g2 =>
      rw [ha] at h
      exact ih g2 g1 (Reachable.activate p hr ha) h

theorem reachable_of_plays (ps : List Nat) (g : Game)
    (h : plays start ps = some g) : Reachable g := by
  have hs : start = some startGame := start_eq
  rw [hs] at h
  exact reachable_plays ps _ _ (Reachable.start start_eq) h

theorem reachable_start : Reachable startGame := Reachable.start start_eq

theorem jumpToMove_total (g : Game) (h : Reachable g) (k : Int) :
    ∃ g1, g.jumpToMove k = some g1 := by
  obtain ⟨_, _, _, _, _, _, _, heq⟩ := jumpToMove_eq g (reachable_inv g h) k
  exact ⟨_, heq⟩

/-! ## C1: length of the move list -/

/-- C1 (as stated), refuted: the state reached by one play followed by a jump
to move 0 is reachable, and there `moves.length = 2` while
`currentMoveIndex + 1 = 1`. -/
theorem moves_length_counterexample :
    ¬ (∀ g : Game, Reachable g →
      (g.moves.length : Int) = g.currentMoveIndex + 1) := by
  intro h
  have hp : plays start [0] = some (playedGame [0]) := by decide
  have hj : (playedGame [0]).jumpToMove (Move.create (-1) 0 0).index =
      some (jumpedGame [0] 0) := by decide
  have hr : Reachable (jumpedGame [0] 0) :=
    Reachable.jump (Move.create (-1) 0 0) (reachable_of_plays _ _ hp) (by decide) hj
  exact absurd (h _ hr) (by decide)

/-- C1 (amended): in every reachable state `0 ≤ currentMoveIndex` and
`currentMoveIndex + 1 ≤ moves.length`; inflating a new game and every accepted
square activation complete with `moves.length = currentMoveIndex + 1`; a jump to
the index of a stored move completes with `currentMoveIndex` set to that index
and the move list unchanged. -/
theorem moves_length_after_operation (g : Game) (h : Reachable g) :
    0 ≤ g.currentMoveIndex ∧ g.currentMoveIndex + 1 ≤ (g.moves.length : Int) ∧
    (∃ g0, Game.new.inflate true = some g0 ∧
      (g0.moves.length : Int) = g0.currentMoveIndex + 1) ∧
    (∀ (i : Nat) (sq : Square), g.squares[i]? = some sq →
      sq.player.truthy = false → g.winner.truthy = false →
      ∃ g1, g.activate i = some g1 ∧
        (g1.moves.length : Int) = g1.currentMoveIndex + 1) ∧
    (∀ m ∈ g.moves, ∃ g1, g.jumpToMove m.index = some g1 ∧
      g1.currentMoveIndex = m.index ∧ g1.moves = g.moves) := by
  have hinv := reachable_inv g h
  refine ⟨hinv.cmi_nonneg, by have := hinv.cmi_lt; omega,
    ⟨startGame, start_eq, by decide⟩, ?_, ?_⟩
  · intro i sq hsq hp hw
    obtain ⟨n, hn⟩ : ∃ n : Nat, (n : Int) = g.currentMoveIndex :=
      ⟨g.currentMoveIndex.toNat, Int.toNat_of_nonneg hinv.cmi_nonneg⟩
    obtain ⟨w, _, heq⟩ := activate_eq g hinv i sq hsq hp hw n hn
    refine ⟨_, heq, ?_⟩
    have hle : n + 1 ≤ g.moves.length := by have := hinv.cmi_lt; omega
    simp only [List.length_append, List.length_take, List.length_singleton,
      Nat.min_eq_left hle]
    push_cast; ring
  · intro m hm
    obtain ⟨_, _, _, _, _, _, _, heq⟩ := jumpToMove_eq g hinv m.index
    exact ⟨_, heq, rfl, rfl⟩

/-- C1 (amended), at the freshly inflated game. -/
theorem moves_length_after_operation_witness :
    Reachable startGame ∧ 0 ≤ startGame.currentMoveIndex ∧
      startGame.currentMoveIndex + 1 ≤ (startGame.moves.length : Int) :=
  ⟨reachable_start,
    (moves_length_after_operation startGame reachable_start).1,
    (moves_length_after_operation startGame reachable_start).2.1⟩

/-! ## C2: rejected activations -/

/-- C2: activating a square that already holds a mark, or any square while the
game has a winner, completes and returns the state it was given: the squares
(player and playerHistory), the move list, currentMoveIndex, nextPlayer, winner
and the status text are all unchanged. -/
theorem activate_rejected_unchanged (g : Game) (i : Nat) (sq : Square)
    (hsq : g.squares[i]? = some sq)
    (h : sq.player.truthy = true ∨ g.winner.truthy = true) :
    g.activate i = some g := by
  rcases h with h | h
  · simp [Game.activate, hsq, h]
  · simp [Game.activate, hsq, h]

/-- C2, at the won game (plays 0, 4, 1, 3, 2): the occupied square 0 and the
empty square 5 both reject the click. -/
theorem activate_rejected_unchanged_witness :
    (playedGame [0, 4, 1, 3, 2]).winner.truthy = true ∧
    (playedGame [0, 4, 1, 3, 2]).activate 5 = some (playedGame [0, 4, 1, 3, 2]) ∧
    (playedGame [0, 4]).activate 0 = some (playedGame [0, 4]) :=
  ⟨by decide,
    activate_rejected_unchanged (playedGame [0, 4, 1, 3, 2]) 5
      (Square.create 5) (by decide) (Or.inr (by decide)),
    activate_rejected_unchanged (playedGame [0, 4]) 0
      { position := 0, player := Val.str "X", playerHistory := Val.str "X",
        textContent := "X" } (by decide) (Or.inl (by decide))⟩

/-! ## C3: branch and overwrite -/

theorem mem_take_index (g : Game) (hinv : Inv g) (n : Nat) (m : Move)
    (hm : m ∈ g.moves.take n) : m.index < n := by
  obtain ⟨j, hj, hjm⟩ := List.mem_take_iff_getElem.1 hm
  have hlt : j < g.moves.length := by omega
  have := hinv.moves_index j m (by rw [List.getElem?_eq_getElem hlt, hjm])
  omega

/-- C3: from a reachable state with `k` the index of a stored move, the jump to
`k` completes, and activating any then-empty square `p` completes with a move
list of length `k + 2` whose first `k + 1` moves are the former ones; every
formerly stored move of index above `k` is gone from the list and its `li` is
no longer a child of the `ol`; the new last move has index `k + 1` and
position `p`. -/
theorem branch_and_overwrite (g : Game) (h : Reachable g) (k : Nat)
    (hk : k < g.moves.length) :
    ∃ g1, g.jumpToMove k = some g1 ∧
      ∀ (p : Nat) (sq : Square), g1.squares[p]? = some sq →
        sq.player.truthy = false →
        ∃ g2 last, g1.activate p = some g2 ∧
          g2.moves.length = k + 2 ∧
          g2.moves.take (k + 1) = g.moves.take (k + 1) ∧
          (∀ m ∈ g.moves, m.index > k →
            m ∉ g2.moves ∧ ∀ v, g2.view = some v → m.rootElement ∉ v.moveList) ∧
          g2.moves.getLast? = some last ∧ last.index = k + 1 ∧
          last.position = p ∧ sq.position = p := by
  have hinv := reachable_inv g h
  obtain ⟨squares1, w, _, _, _, _, _, heq⟩ := jumpToMove_eq g hinv k
  refine ⟨_, heq, ?_⟩
  have hinv1 := inv_jump g hinv k hk _ heq
  intro p sq hsq hp
  obtain ⟨w2, _, heq2⟩ := activate_eq _ hinv1 p sq hsq hp rfl k rfl
  have hle : k + 1 ≤ g.moves.length := by omega
  have hlen : (g.moves.take (k + 1)).length = k + 1 := by
    rw [List.length_take, Nat.min_eq_left hle]
  refine ⟨_, Move.create p ((k + 1 : Nat) : Int) g.nodes, heq2, ?_, ?_, ?_, ?_, ?_, rfl,
    hinv1.squares_pos p sq hsq⟩
  · simp only [List.length_append, List.length_singleton, hlen]
  · exact List.take_left' hlen
  · intro m hm hidx
    have hnot : m ∉ g.moves.take (k + 1) := by
      intro hmem
      have := mem_take_index g hinv (k + 1) m hmem
      omega
    have hnode := hinv.nodes_lt m hm
    constructor
    · intro hmem
      simp only [List.mem_append, List.mem_singleton] at hmem
      rcases hmem with hmem | hmem
      · exact hnot hmem
      · rw [hmem] at hnode
        simp [Move.create] at hnode
    · intro v hv
      cases hv
      simp only [List.mem_append, List.mem_singleton, List.mem_map]
      rintro (⟨m1, hm1, hroot⟩ | hroot)
      · have := List.inj_on_of_nodup_map hinv.nodes_nodup
          (List.mem_of_mem_take hm1) hm hroot
        rw [this] at hm1
        exact hnot hm1
      · omega
  · simp only [List.getLast?_concat]
  · simp only [Move.create]; push_cast; ring

/-- C3, after the plays 0, 4, 1 and for `k = 1`. -/
theorem branch_and_overwrite_witness :
    Reachable (playedGame [0, 4, 1]) ∧ 1 < (playedGame [0, 4, 1]).moves.length ∧
    ∃ g1, (playedGame [0, 4, 1]).jumpToMove (1 : Nat) = some g1 ∧
      ∀ (p : Nat) (sq : Square), g1.squares[p]? = some sq →
        sq.player.truthy = false →
        ∃ g2 last, g1.activate p = some g2 ∧
          g2.moves.length = 1 + 2 ∧
          g2.moves.take (1 + 1) = (playedGame [0, 4, 1]).moves.take (1 + 1) ∧
          (∀ m ∈ (playedGame [0, 4, 1]).moves, m.index > (1 : Nat) →
            m ∉ g2.moves ∧ ∀ v, g2.view = some v → m.rootElement ∉ v.moveList) ∧
          g2.moves.getLast? = some last ∧ last.index = (1 : Nat) + 1 ∧
          last.position = p ∧ sq.position = p :=
  ⟨reachable_of_plays [0, 4, 1] _ (by decide), by decide,
    branch_and_overwrite (playedGame [0, 4, 1])
      (reachable_of_plays [0, 4, 1] _ (by decide)) 1 (by decide)⟩

/-! ## C4: the winner computation -/

/-- C4: on nine squares `calculateWinner` returns a value; that value is `null`
exactly when none of the eight lines holds three identical non-empty marks, and
otherwise it is the mark of the first such line in the order
`[0,1,2],[3,4,5],[6,7,8],[0,3,6],[1,4,7],[2,5,8],[0,4,8],[2,4,6]`; it is `X` on
the board `[X,X,X,_,_,_,_,_,_]` and `null` on the full board
`[X,O,X,O,X,O,O,X,O]`. -/
theorem calculateWinner_first_line (g : Game) (h9 : g.squares.length = 9) :
    lines = [(0, 1, 2), (3, 4, 5), (6, 7, 8), (0, 3, 6), (1, 4, 7), (2, 5, 8),
      (0, 4, 8), (2, 4, 6)] ∧
    (∃ w, g.calculateWinner = some w ∧
      (w = Val.null ↔ ∀ l ∈ lines, lineFull g.squares l = false) ∧
      (∀ l, lines.find? (lineFull g.squares) = some l →
        w = playerAt g.squares l.1 ∧ lineFull g.squares l = true)) ∧
    (boardGame [.str "X", .str "X", .str "X", .null, .null, .null, .null, .null,
      .null]).calculateWinner = some (Val.str "X") ∧
    (boardGame [.str "X", .str "O", .str "X", .str "O", .str "X", .str "O",
      .str "O", .str "X", .str "O"]).calculateWinner = some Val.null := by
  refine ⟨rfl, ?_, by decide, by decide⟩
  rw [calculateWinner_eq g h9]
  refine ⟨_, rfl, ?_, ?_⟩
  · cases hf : lines.find? (lineFull g.squares) with
    | none =>
      simp only [true_iff]
      intro l hl
      have := List.find?_eq_none.1 hf l hl
      simpa using this
    | some l =>
      have hfull := List.find?_some hf
      have hmem := List.mem_of_find?_eq_some hf
      constructor
      · intro hnull
        have ht : (playerAt g.squares l.1).truthy = true := by
          simp only [lineFull, Bool.and_eq_true] at hfull
          exact hfull.1.1
        simp only at hnull
        rw [hnull] at ht
        cases ht
      · intro hall
        rw [hall l hmem] at hfull
        cases hfull
  · intro l hf
    rw [hf]
    exact ⟨rfl, List.find?_some hf⟩

/-- C4, at the board `[X,O,X,_,O,_,_,O,_]`, whose first full line is the
middle column `[1,4,7]`. -/
theorem calculateWinner_first_line_witness :
    (boardGame [.str "X", .str "O", .str "X", .null, .str "O", .null, .null,
      .str "O", .null]).squares.length = 9 ∧
    (boardGame [.str "X", .str "O", .str "X", .null, .str "O", .null, .null,
      .str "O", .null]).calculateWinner = some (Val.str "O") := by
  refine ⟨by decide, ?_⟩
  obtain ⟨_, ⟨w, hw, _, hfirst⟩, _, _⟩ := calculateWinner_first_line
    (boardGame [.str "X", .str "O", .str "X", .null, .str "O", .null, .null,
      .str "O", .null]) (by decide)
  rw [hw, (hfirst (1, 4, 7) (by decide)).1]
  decide

/-! ## C5: the board replays the active history -/

/-- C5: in a reachable state, (1) a square holding a mark (player neither
`null` nor `undefined`) is the target of a stored move with index in
`1 .. currentMoveIndex`; (2) a jump to the index `k` of a stored move completes,
keeps the move list, leaves the square of every stored move of index above `k`
empty (player `null`, no text) and makes the square of every stored move of
index `1 .. k` show the mark `markFor (index - 1)`; (3) that is the mark placed
when the move was played: an accepted activation appends a move `m` and puts
`markFor (m.index - 1)` on the square it targets. -/
theorem board_replays_history (g : Game) (h : Reachable g) :
    (∀ (i : Nat) (sq : Square), g.squares[i]? = some sq →
      sq.player ≠ Val.null → sq.player ≠ Val.undefined →
      ∃ m ∈ g.moves, 1 ≤ m.index ∧ m.index ≤ g.currentMoveIndex ∧
        m.position = sq.position) ∧
    (∀ mk ∈ g.moves, ∃ g1, g.jumpToMove mk.index = some g1 ∧ g1.moves = g.moves ∧
      ∀ m ∈ g.moves, 1 ≤ m.index →
        ∃ sq, lookup g1.squares m.position = some sq ∧
          if m.index > mk.index then sq.player = Val.null ∧ sq.textContent = ""
          else sq.player = markFor (m.index - 1) ∧
            sq.textContent = (markFor (m.index - 1)).toText) ∧
    (∀ (i : Nat) (sq : Square), g.squares[i]? = some sq →
      sq.player.truthy = false → g.winner.truthy = false →
      ∃ g1 m sq1, g.activate i = some g1 ∧ g1.moves.getLast? = some m ∧
        m.position = i ∧ g1.squares[i]? = some sq1 ∧
        sq1.player = markFor (m.index - 1)) := by
  have hinv := reachable_inv g h
  refine ⟨?_, ?_, ?_⟩
  · intro i sq hsq hnull hundef
    have ht : sq.player.truthy = true := by
      rcases hinv.squares_player i sq hsq with hu | hn | ht
      · exact absurd hu hundef
      · exact absurd hn hnull
      · exact ht
    obtain ⟨j, m, hjm, h1, hjc, hmp⟩ := hinv.occupied i sq hsq ht
    have hidx := hinv.moves_index j m hjm
    refine ⟨m, List.mem_iff_getElem?.2 ⟨j, hjm⟩, by omega, by omega, ?_⟩
    rw [hmp, hinv.squares_pos i sq hsq]
  · intro mk _
    obtain ⟨squares1, w, _, hA, _, _, _, heq⟩ := jumpToMove_eq g hinv mk.index
    refine ⟨_, heq, rfl, ?_⟩
    intro m hm h1
    obtain ⟨j, hidx, _, hjm⟩ := mem_moves_index g hinv m hm
    have hj1 : 1 ≤ j := by omega
    obtain ⟨sq, hl, hph, _⟩ := hinv.hist j m hjm hj1
    refine ⟨_, hA j m sq hj1 hjm hl, ?_⟩
    rw [hidx]
    by_cases hgt : (j : Int) > mk.index
    · rw [if_pos hgt, if_pos hgt]
      exact ⟨rfl, rfl⟩
    · rw [if_neg hgt, if_neg hgt]
      simp only [Square.refresh, hph, and_self]
  · intro i sq hsq hp hw
    obtain ⟨n, hn⟩ : ∃ n : Nat, (n : Int) = g.currentMoveIndex :=
      ⟨g.currentMoveIndex.toNat, Int.toNat_of_nonneg hinv.cmi_nonneg⟩
    obtain ⟨w, _, heq⟩ := activate_eq g hinv i sq hsq hp hw n hn
    have hi9 : i < g.squares.length := getElem?_lt_length _ _ _ hsq
    refine ⟨_, Move.create i ((n + 1 : Nat) : Int) g.nodes,
      { sq with playerHistory := markFor n, player := markFor n,
                textContent := (markFor n).toText }, heq, ?_, rfl, ?_, ?_⟩
    · simp only [List.getLast?_concat]
    · simp only [List.getElem?_set_self hi9]
    · simp only [Move.create]; congr 1; push_cast; ring

/-- C5, at the state after the plays 0, 4, 1, 3, 2. -/
theorem board_replays_history_witness :
    Reachable (playedGame [0, 4, 1, 3, 2]) ∧
    (∀ (i : Nat) (sq : Square), (playedGame [0, 4, 1, 3, 2]).squares[i]? = some sq →
      sq.player ≠ Val.null → sq.player ≠ Val.undefined →
      ∃ m ∈ (playedGame [0, 4, 1, 3, 2]).moves, 1 ≤ m.index ∧
        m.index ≤ (playedGame [0, 4, 1, 3, 2]).currentMoveIndex ∧
        m.position = sq.position) :=
  ⟨reachable_of_plays [0, 4, 1, 3, 2] _ (by decide),
    (board_replays_history (playedGame [0, 4, 1, 3, 2])
      (reachable_of_plays [0, 4, 1, 3, 2] _ (by decide))).1⟩

/-! ## C6: the winner field after a jump -/

theorem jumpToMove_winner_null (g g1 : Game) (k : Int)
    (h : g.jumpToMove k = some g1) : g1.winner = Val.null := by
  unfold Game.jumpToMove at h
  split at h
  · cases h
  · split at h
    · cases h
    · cases h; rfl

/-- C6, at the failing input: after the plays 0, 4, 1, 3, 2 (X has completed
the top row) the jump to move 5 completes with `currentMoveIndex = 5`, the
restored board still holds the line (`calculateWinner` gives `X`) and the
status text is "Winner: X", yet the `winner` field is `null`. -/
theorem jumpToMove_clears_winner_after_status :
    plays start [0, 4, 1, 3, 2] = some (playedGame [0, 4, 1, 3, 2]) ∧
    (playedGame [0, 4, 1, 3, 2]).jumpToMove 5 = some (jumpedGame [0, 4, 1, 3, 2] 5) ∧
    (jumpedGame [0, 4, 1, 3, 2] 5).currentMoveIndex = 5 ∧
    (jumpedGame [0, 4, 1, 3, 2] 5).board =
      [.str "X", .str "X", .str "X", .str "0", .str "0", .undefined, .undefined,
       .undefined, .undefined] ∧
    (jumpedGame [0, 4, 1, 3, 2] 5).calculateWinner = some (Val.str "X") ∧
    (jumpedGame [0, 4, 1, 3, 2] 5).status = "Winner: X" ∧
    (jumpedGame [0, 4, 1, 3, 2] 5).winner = Val.null := by
  decide

/-! ## C7: the next player follows the parity of the move index -/

theorem markFor_eq (n : Int) (h : 0 ≤ n) :
    markFor n = if n % 2 = 0 then Val.str "X" else Val.str "0" := by
  unfold markFor
  rw [Int.tmod_eq_emod h (by decide)]
  by_cases h2 : n % 2 = 0
  · simp [h2]
  · simp [h2]

theorem plays_append (og : Option Game) (ps qs : List Nat) :
    plays og (ps ++ qs) = plays (plays og ps) qs := by
  induction ps generalizing og with
  | nil => rfl
  | cons p ps ih =>
    show plays (og.bind fun g => g.activate p) (ps ++ qs) = _
    rw [ih]
    rfl

theorem plays_concat (ps : List Nat) (p : Nat) (g1 : Game)
    (h : plays start (ps ++ [p]) = some g1) :
    ∃ g, plays start ps = some g ∧ g.activate p = some g1 := by
  rw [plays_append] at h
  cases hg : plays start ps with
  | none => rw [hg] at h; cases h
  | some g =>
    rw [hg] at h
    exact ⟨g, rfl, h⟩

theorem plays_distinct (ps : List Nat) :
    ∀ g : Game, plays start ps = some g → ps.Nodup → (∀ p ∈ ps, p < 9) →
      g.winner.truthy = false →
      g.currentMoveIndex = ps.length ∧
      ∀ (i : Nat) (sq : Square), g.squares[i]? = some sq →
        (sq.player.truthy = true ↔ i ∈ ps) := by
  induction ps using List.reverseRecOn with
  | nil =>
    intro g hg _ _ _
    have hs : start = some startGame := start_eq
    simp only [plays, hs] at hg
    cases hg
    refine ⟨rfl, ?_⟩
    intro i sq hsq
    constructor
    · intro ht
      obtain ⟨j, m, _, h1, hjc, _⟩ :=
        (reachable_inv _ reachable_start).occupied i sq hsq ht
      have h0 : startGame.currentMoveIndex = 0 := rfl
      omega
    · intro hmem
      cases hmem
  | append_singleton ps p ih =>
    intro g1 hg1 hnd h9 hw1
    obtain ⟨g, hg, hact⟩ := plays_concat ps p g1 hg1
    have hr : Reachable g := reachable_of_plays ps g hg
    have hinv := reachable_inv g hr
    have hp9 : p < g.squares.length := by
      rw [hinv.squares_len]
      exact h9 p (by simp)
    have hsq : g.squares[p]? = some (g.squares[p]) := List.getElem?_eq_getElem hp9
    have hw : g.winner.truthy = false := by
      by_contra hne
      simp only [Bool.not_eq_false] at hne
      have : g.activate p = some g := by simp [Game.activate, hsq, hne]
      rw [this] at hact
      cases hact
      rw [hne] at hw1
      cases hw1
    have hnd0 : ps.Nodup := (List.nodup_append.1 hnd).1
    have hpnot : p ∉ ps := by
      intro hmem
      exact (List.nodup_append.1 hnd).2.2 hmem (List.mem_singleton_self p)
    obtain ⟨hcmi, hocc⟩ := ih g hg hnd0
      (fun q hq => h9 q (List.mem_append_left _ hq)) hw
    have hp : (g.squares[p]).player.truthy = false := by
      by_contra hne
      simp only [Bool.not_eq_false] at hne
      exact hpnot ((hocc p _ hsq).1 hne)
    obtain ⟨w, _, heq⟩ := activate_eq g hinv p _ hsq hp hw ps.length hcmi.symm
    rw [heq] at hact
    cases hact
    refine ⟨by simp, ?_⟩
    intro i sq hi
    simp only [List.getElem?_set] at hi
    by_cases he : p = i
    · rw [if_pos he, if_pos hp9] at hi
      cases hi
      simp only [markFor_truthy, true_iff, List.mem_append, List.mem_singleton]
      exact Or.inr he.symm
    · rw [if_neg he] at hi
      rw [hocc i sq hi]
      simp only [List.mem_append, List.mem_singleton]
      constructor
      · exact Or.inl
      · rintro (hm | hm)
        · exact hm
        · exact absurd hm.symm he

/-- C7 (as stated), refuted: after the first play the move index is 1 (odd) and
`nextPlayer` is the string `'0'` (digit zero), not the letter `'O'`. -/
theorem nextPlayer_letter_counterexample :
    ¬ (∀ g : Game, Reachable g →
      g.nextPlayer =
        if g.currentMoveIndex % 2 = 0 then Val.str "X" else Val.str "O") := by
  intro h
  have hr := reachable_of_plays [0] (playedGame [0]) (by decide)
  exact absurd (h _ hr) (by decide)

/-- C7 (amended): in every reachable state (after inflate and after every play
or jump) `nextPlayer` is `'X'` when `currentMoveIndex` is even and the string
`'0'` (digit zero) when it is odd; and when the state is the result of plays
`ps` on a new game with no winner yet, and `p` is a further square such that
`ps ++ [p]` are distinct squares, then `currentMoveIndex = ps.length`,
`nextPlayer` is `'X'` for an even and `'0'` for an odd number of plays so far,
and activating `p` completes and places exactly that mark on square `p`. -/
theorem nextPlayer_parity (g : Game) (h : Reachable g) :
    g.nextPlayer =
      (if g.currentMoveIndex % 2 = 0 then Val.str "X" else Val.str "0") ∧
    (∀ (ps : List Nat) (p : Nat), plays start ps = some g → (ps ++ [p]).Nodup →
      (∀ q ∈ ps ++ [p], q < 9) → g.winner.truthy = false →
      g.currentMoveIndex = ps.length ∧
      g.nextPlayer = (if ps.length % 2 = 0 then Val.str "X" else Val.str "0") ∧
      ∃ g1 sq1, g.activate p = some g1 ∧ g1.squares[p]? = some sq1 ∧
        sq1.player = (if ps.length % 2 = 0 then Val.str "X" else Val.str "0") ∧
        g1.currentMoveIndex = ps.length + 1) := by
  have hinv := reachable_inv g h
  have hnp : g.nextPlayer =
      (if g.currentMoveIndex % 2 = 0 then Val.str "X" else Val.str "0") := by
    rw [hinv.nextPlayer_eq, markFor_eq _ hinv.cmi_nonneg]
  refine ⟨hnp, ?_⟩
  intro ps p hg hnd h9 hw
  have hnd0 : ps.Nodup := (List.nodup_append.1 hnd).1
  have hpnot : p ∉ ps := by
    intro hmem
    exact (List.nodup_append.1 hnd).2.2 hmem (List.mem_singleton_self p)
  obtain ⟨hcmi, hocc⟩ := plays_distinct ps g hg hnd0
    (fun q hq => h9 q (List.mem_append_left _ hq)) hw
  have hp9 : p < g.squares.length := by
    rw [hinv.squares_len]
    exact h9 p (by simp)
  have hsq : g.squares[p]? = some (g.squares[p]) := List.getElem?_eq_getElem hp9
  have hp : (g.squares[p]).player.truthy = false := by
    by_contra hne
    simp only [Bool.not_eq_false] at hne
    exact hpnot ((hocc p _ hsq).1 hne)
  have hmark : markFor (ps.length : Int) =
      (if ps.length % 2 = 0 then Val.str "X" else Val.str "0") := by
    rw [markFor_eq _ (by omega)]
    by_cases h2 : ps.length % 2 = 0
    · rw [if_pos h2, if_pos (by omega)]
    · rw [if_neg h2, if_neg (by omega)]
  obtain ⟨w, _, heq⟩ := activate_eq g hinv p _ hsq hp hw ps.length hcmi.symm
  refine ⟨hcmi, ?_, _,
    { g.squares[p] with playerHistory := markFor ps.length, player := markFor ps.length,
                        textContent := (markFor ps.length).toText },
    heq, ?_, ?_, ?_⟩
  · rw [hinv.nextPlayer_eq, hcmi, hmark]
  · simp only [List.getElem?_set_self hp9]
  · exact hmark
  · simp

/-- C7 (amended), at the state after the plays 0, 4, 1 with square 3 next. -/
theorem nextPlayer_parity_witness :
    Reachable (playedGame [0, 4, 1]) ∧
    (playedGame [0, 4, 1]).nextPlayer = Val.str "0" ∧
    ∃ g1 sq1, (playedGame [0, 4, 1]).activate 3 = some g1 ∧
      g1.squares[3]? = some sq1 ∧ sq1.player = Val.str "0" := by
  have hr := reachable_of_plays [0, 4, 1] (playedGame [0, 4, 1]) (by decide)
  obtain ⟨_, hnp, g1, sq1, h1, h2, h3, _⟩ :=
    (nextPlayer_parity (playedGame [0, 4, 1]) hr).2 [0, 4, 1] 3 (by decide)
      (by decide) (by decide) (by decide)
  exact ⟨hr, hnp, g1, sq1, h1, h2, h3⟩

/-! ## C8: a new game -/

/-- C8: `new Game()` followed by `inflate` on a valid parent completes; the
status text is "Next Player: X", there are exactly nine squares, with positions
0 to 8 in row-major order, none of them holding a player or showing text, the
winner is `null`, `currentMoveIndex` is 0, and the move list has exactly one
entry, with index 0, position -1 and label "Go to game start". -/
theorem new_game_inflated :
    ∃ g, Game.new.inflate true = some g ∧
      g.status = "Next Player: X" ∧
      g.squares.length = 9 ∧
      g.squares.map Square.position = [0, 1, 2, 3, 4, 5, 6, 7, 8] ∧
      (∀ sq ∈ g.squares, sq.player = Val.undefined ∧ sq.player.truthy = false ∧
        sq.textContent = "") ∧
      g.winner = Val.null ∧
      g.currentMoveIndex = 0 ∧
      g.moves.map (fun m => (m.index, m.position, m.label)) =
        [(0, -1, "Go to game start")] ∧
      ∃ v, g.view = some v ∧ v.moveList.length = 1 :=
  ⟨startGame, start_eq, by decide, by decide, by decide, by decide, by decide,
    by decide, by decide, ⟨_, rfl, by decide⟩⟩

/-! ## C9: the winning scenario -/

/-- C9 (as stated), refuted: the plays 0, 4, 1, 3, 2 do not leave the letter
`'O'` on the squares 4 and 3; the second player's mark is the string `'0'`. -/
theorem letter_mark_win_counterexample :
    ¬ (∃ g, plays start [0, 4, 1, 3, 2] = some g ∧
      [0, 4, 1, 3, 2].map (playerAt g.squares) =
        [.str "X", .str "O", .str "X", .str "O", .str "X"] ∧
      g.winner = Val.str "X" ∧ g.status = "Winner: X" ∧ g.moves.length = 6) := by
  rintro ⟨g, hg, hmarks, _⟩
  have hp : plays start [0, 4, 1, 3, 2] = some (playedGame [0, 4, 1, 3, 2]) := by
    decide
  rw [hp] at hg
  cases hg
  exact absurd hmarks (by decide)

/-- C9 (amended): from the freshly inflated game, activating the squares 0, 4,
1, 3, 2 in that order places `'X'`, `'0'`, `'X'`, `'0'`, `'X'` (the second mark
is the digit-zero string), after which the winner is `'X'`, the status text is
"Winner: X" and the move list has 6 entries. -/
theorem win_scenario :
    (plays start [0]).map (fun g => playerAt g.squares 0) = some (.str "X") ∧
    (plays start [0, 4]).map (fun g => playerAt g.squares 4) = some (.str "0") ∧
    (plays start [0, 4, 1]).map (fun g => playerAt g.squares 1) = some (.str "X") ∧
    (plays start [0, 4, 1, 3]).map (fun g => playerAt g.squares 3) =
      some (.str "0") ∧
    (plays start [0, 4, 1, 3, 2]).map (fun g => playerAt g.squares 2) =
      some (.str "X") ∧
    ∃ g, plays start [0, 4, 1, 3, 2] = some g ∧
      g.board = [.str "X", .str "X", .str "X", .str "0", .str "0", .undefined,
        .undefined, .undefined, .undefined] ∧
      g.winner = Val.str "X" ∧ g.status = "Winner: X" ∧ g.moves.length = 6 :=
  ⟨by decide, by decide, by decide, by decide, by decide,
    playedGame [0, 4, 1, 3, 2], by decide, by decide, by decide, by decide,
    by decide⟩

/-! ## C10: the revert scenario -/

/-- C10 (as stated), refuted: after the plays 0, 4, 1, 3, 2 the jump to move 2
does not leave a mark on square 1 (move 2 was played on square 4). -/
theorem board_after_revert_counterexample :
    ¬ (∃ g0 g, plays start [0, 4, 1, 3, 2] = some g0 ∧
      g0.jumpToMove 2 = some g ∧
      playerAt g.squares 0 = Val.str "X" ∧
      playerAt g.squares 1 = Val.str "O" ∧
      (∀ i ∈ [2, 3, 4, 5, 6, 7, 8], (playerAt g.squares i).truthy = false) ∧
      g.status = "Next Player: X" ∧ g.winner = Val.null) := by
  rintro ⟨g0, g, hg0, hg, _, h1, _⟩
  have hp : plays start [0, 4, 1, 3, 2] = some (playedGame [0, 4, 1, 3, 2]) := by
    decide
  rw [hp] at hg0
  cases hg0
  have hj : (playedGame [0, 4, 1, 3, 2]).jumpToMove 2 =
      some (jumpedGame [0, 4, 1, 3, 2] 2) := by decide
  rw [hj] at hg
  cases hg
  exact absurd h1 (by decide)

/-- C10 (amended): in the state reached by the plays 0, 4, 1, 3, 2 the jump to
move 2 completes and restores the board of the first two plays: `'X'` on
square 0, `'0'` (digit zero) on square 4, the other seven squares empty (the
cleared squares 1, 2, 3 hold `null` and show no text); the status text is
"Next Player: X", the winner is `null`, `currentMoveIndex` is 2 and the six
moves stay in the list. -/
theorem revert_scenario :
    ∃ g0 g, plays start [0, 4, 1, 3, 2] = some g0 ∧
      g0.jumpToMove 2 = some g ∧
      g.board = [.str "X", .null, .null, .null, .str "0", .undefined, .undefined,
        .undefined, .undefined] ∧
      g.squares.map Square.textContent = ["X", "", "", "", "0", "", "", "", ""] ∧
      g.status = "Next Player: X" ∧ g.winner = Val.null ∧
      g.currentMoveIndex = 2 ∧ g.moves.length = 6 :=
  ⟨playedGame [0, 4, 1, 3, 2], jumpedGame [0, 4, 1, 3, 2] 2, by decide, by decide,
    by decide, by decide, by decide, by decide, by decide, by decide⟩

/-! ## C11: `Component.deflate` -/

theorem parentElement_filter_self (ps : List (Nat × Nat)) (ls : List Listener)
    (child : Nat) :
    Dom.parentElement
      { parents := ps.filter fun p => p.1 != child, listeners := ls } child = none := by
  unfold Dom.parentElement
  simp only [Option.map_eq_none', List.find?_eq_none, List.mem_filter]
  rintro p ⟨_, hp⟩
  simpa using hp

theorem find?_filter_ne (ps : List (Nat × Nat)) (child n : Nat) (h : n ≠ child) :
    (ps.filter fun p => p.1 != child).find? (fun p => p.1 == n) =
      ps.find? (fun p => p.1 == n) := by
  induction ps with
  | nil => rfl
  | cons p ps ih =>
    by_cases hp : p.1 = child
    · have e1 : (p.1 != child) = false := by simp [hp]
      have e2 : (p.1 == n) = false := by
        simp only [beq_eq_false_iff_ne, ne_eq]
        exact fun e => h (e.symm.trans hp)
      simp only [List.filter_cons, List.find?_cons, e1, e2, Bool.false_eq_true,
        if_false, ih]
    · have e1 : (p.1 != child) = true := by simp [hp]
      simp only [List.filter_cons, List.find?_cons, e1, if_true, ih]

theorem parentElement_filter_ne (ps : List (Nat × Nat)) (ls ls1 : List Listener)
    (child n : Nat) (h : n ≠ child) :
    Dom.parentElement
      { parents := ps.filter fun p => p.1 != child, listeners := ls } n =
    Dom.parentElement { parents := ps, listeners := ls1 } n := by
  unfold Dom.parentElement
  simp only [find?_filter_ne ps child n h]

theorem removeEventListenersLoop_parents (ls : List Listener) :
    ∀ d : Dom, (removeEventListenersLoop ls d).parents = d.parents := by
  induction ls with
  | nil => intro d; rfl
  | cons l rest ih =>
    intro d
    simp only [removeEventListenersLoop, ih, Dom.removeEventListener]

theorem removeEventListenersLoop_listeners (ls : List Listener) :
    ∀ (d : Dom) (r : Listener),
      r ∈ (removeEventListenersLoop ls d).listeners ↔ r ∈ d.listeners ∧ r ∉ ls := by
  induction ls with
  | nil => intro d r; simp [removeEventListenersLoop]
  | cons l rest ih =>
    intro d r
    simp only [removeEventListenersLoop, ih, Dom.removeEventListener, List.mem_filter,
      List.mem_cons, not_or, bne_iff_ne, ne_eq]
    tauto

theorem removeEventListeners_parentElement (c : Component) (d : Dom) (n : Nat) :
    (c.removeEventListeners d).parentElement n = d.parentElement n := by
  unfold Component.removeEventListeners Dom.parentElement
  rw [removeEventListenersLoop_parents]

theorem deflate_attached (c : Component) (d : Dom) (root parent : Nat)
    (hr : c.rootElement = some root) (hp : d.parentElement root = some parent) :
    c.deflate d = some
      { parents := (d.parents.filter fun p => p.1 != root)
        listeners := (c.removeEventListeners d).listeners } := by
  have hp1 := removeEventListeners_parentElement c d root
  rw [hp] at hp1
  have hpar : (c.removeEventListeners d).parents = d.parents :=
    removeEventListenersLoop_parents _ _
  simp only [Component.deflate, hr, hp, hp1, Dom.removeChild, if_true, hpar]

theorem deflate_detached (c : Component) (d : Dom)
    (h : ∀ root, c.rootElement = some root → d.parentElement root = none) :
    c.deflate d = some d := by
  unfold Component.deflate
  cases hr : c.rootElement with
  | none => rfl
  | some root => simp only [h root hr]

theorem addEventListener_registers (d : Dom) (l : Listener) :
    l ∈ (d.addEventListener l).listeners := by
  unfold Dom.addEventListener
  by_cases h : l ∈ d.listeners
  · rw [if_pos h]; exact h
  · rw [if_neg h]; simp

/-- C11: `deflate` never raises. When the root element has a parent, the
resulting document has the root detached (no `parentElement`), every other
parent link unchanged, and exactly the registrations recorded on this instance
unregistered; when there is no root element or it has no parent, the document is
unchanged. A second `deflate` returns the state of the first. A listener added
through `addEventListener` on an element is registered and recorded (so a later
`deflate` of an attached component unregisters it); on a target that is not an
element nothing is registered or recorded. -/
theorem deflate_detaches_once (c : Component) (d : Dom) :
    ∃ d1, c.deflate d = some d1 ∧
      (∀ root parent, c.rootElement = some root →
        d.parentElement root = some parent →
        d1.parentElement root = none ∧
        (∀ n, n ≠ root → d1.parentElement n = d.parentElement n) ∧
        (∀ r, r ∈ d1.listeners ↔ r ∈ d.listeners ∧ r ∉ c.eventListeners)) ∧
      ((∀ root, c.rootElement = some root → d.parentElement root = none) →
        d1 = d) ∧
      c.deflate d1 = some d1 ∧
      (∀ (el : Nat) (type : String) (listener : Nat),
        ({ el := el, type := type, listener := listener } : Listener) ∈
          (c.addEventListener d (some el) type listener).1.eventListeners ∧
        ({ el := el, type := type, listener := listener } : Listener) ∈
          (c.addEventListener d (some el) type listener).2.listeners ∧
        c.addEventListener d none type listener = (c, d)) := by
  have hadd : ∀ (el : Nat) (type : String) (listener : Nat),
      ({ el := el, type := type, listener := listener } : Listener) ∈
        (c.addEventListener d (some el) type listener).1.eventListeners ∧
      ({ el := el, type := type, listener := listener } : Listener) ∈
        (c.addEventListener d (some el) type listener).2.listeners ∧
      c.addEventListener d none type listener = (c, d) := by
    intro el type listener
    refine ⟨?_, ?_, rfl⟩
    · simp [Component.addEventListener]
    · exact addEventListener_registers d _
  by_cases hatt : ∃ root parent, c.rootElement = some root ∧
      d.parentElement root = some parent
  · obtain ⟨root, parent, hr, hp⟩ := hatt
    refine ⟨_, deflate_attached c d root parent hr hp, ?_, ?_, ?_, hadd⟩
    · intro root1 parent1 hr1 _
      rw [hr] at hr1
      cases hr1
      refine ⟨parentElement_filter_self _ _ _, ?_, ?_⟩
      · intro n hn
        exact parentElement_filter_ne d.parents _ d.listeners root n hn
      · intro r
        exact removeEventListenersLoop_listeners c.eventListeners d r
    · intro hnone
      rw [hnone root hr] at hp
      cases hp
    · apply deflate_detached
      intro root1 hr1
      rw [hr] at hr1
      cases hr1
      exact parentElement_filter_self _ _ _
  · have hdet : ∀ root, c.rootElement = some root → d.parentElement root = none := by
      intro root hr
      cases hp : d.parentElement root with
      | none => rfl
      | some parent => exact absurd ⟨root, parent, hr, hp⟩ hatt
    refine ⟨d, deflate_detached c d hdet, ?_, fun _ => rfl,
      deflate_detached c d hdet, hadd⟩
    intro root parent hr hp
    rw [hdet root hr] at hp
    cases hp

/-- C11, at the sample component and document: the first `deflate` detaches
node 1 and unregisters the two recorded listeners, keeping node 3 and the
foreign listener; the second `deflate` changes nothing. -/
theorem deflate_detaches_once_witness :
    sampleComponent.deflate sampleDom = some
      { parents := [(3, 0)]
        listeners := [{ el := 3, type := "click", listener := 9 }] } ∧
    sampleComponent.deflate
      { parents := [(3, 0)]
        listeners := [{ el := 3, type := "click", listener := 9 }] } = some
      { parents := [(3, 0)]
        listeners := [{ el := 3, type := "click", listener := 9 }] } := by
  obtain ⟨d1, h1, _, _, h2, _⟩ := deflate_detaches_once sampleComponent sampleDom
  have he : sampleComponent.deflate sampleDom = some
      { parents := [(3, 0)]
        listeners := [{ el := 3, type := "click", listener := 9 }] } := by decide
  rw [he] at h1
  cases h1
  exact ⟨he, h2⟩

/-! ## C12: a won game continued through a revert -/

/-- C12: after the plays 0, 4, 1, 3, 2 and the jump to move 5 (the latest move)
the state is reachable, the board holds the completed line `[0,1,2]`
(`calculateWinner` gives `X`) and yet `winner` is `null`; activating the empty
square 5 is then accepted: it places the mark `'0'` on square 5 and appends a
seventh move (index 6, position 5) after the game was already won. -/
theorem won_game_continues_after_revert :
    ∃ g0 g g1, plays start [0, 4, 1, 3, 2] = some g0 ∧
      g0.winner = Val.str "X" ∧
      g0.jumpToMove 5 = some g ∧ Reachable g ∧
      lineFull g.squares (0, 1, 2) = true ∧
      g.calculateWinner = some (Val.str "X") ∧
      g.winner = Val.null ∧
      playerAt g.squares 5 = Val.undefined ∧
      g.activate 5 = some g1 ∧
      playerAt g1.squares 5 = Val.str "0" ∧
      g.moves.length = 6 ∧ g1.moves.length = 7 ∧
      g1.moves.getLast?.map (fun m => (m.index, m.position)) = some (6, 5) ∧
      g1.currentMoveIndex = 6 := by
  have hp : plays start [0, 4, 1, 3, 2] = some (playedGame [0, 4, 1, 3, 2]) := by
    decide
  have hj : (playedGame [0, 4, 1, 3, 2]).jumpToMove (Move.create 2 5 5).index =
      some (jumpedGame [0, 4, 1, 3, 2] 5) := by decide
  have hr : Reachable (jumpedGame [0, 4, 1, 3, 2] 5) :=
    Reachable.jump (Move.create 2 5 5) (reachable_of_plays _ _ hp) (by decide) hj
  refine ⟨playedGame [0, 4, 1, 3, 2], jumpedGame [0, 4, 1, 3, 2] 5,
    match (jumpedGame [0, 4, 1, 3, 2] 5).activate 5 with
    | none => Game.new
    | some g1 => g1,
    hp, by decide, by decide, hr, by decide, by decide, by decide, by decide,
    by decide, by decide, by decide, by decide, by decide, by decide⟩

end TicTacToe
